import Mathlib

/-!
Verification of the Yahtzee expected-score solver (`analyser.py`).

The development embeds the module shallowly:

* dice pips are `List Nat` values (the canonical sorted 5-element hand);
* the 13 scoring categories are an inductive type `Cat`, listed in the
  source's order by `categories`;
* probabilities and expected values are exact rationals `ℚ` in place of the
  source's IEEE doubles (the arithmetic is embedded exactly, not rounded);
* the game state is a 19-bit natural number, low 13 bits the open-category
  mask, high 6 bits the capped upper total, exactly as in the source.
-/

set_option maxRecDepth 4000
set_option maxHeartbeats 4000000

/-- Source `die_spots = range(1, 7)`: the six die faces. -/
def die_spots : List Nat := [1, 2, 3, 4, 5, 6]

/-- The thirteen scoring categories, in the order of the source's
`categories` list (codes 0 to 12). -/
inductive Cat where
  | ones | twos | threes | fours | fives | sixes
  | three_kind | four_kind | full_house | small_straight
  | large_straight | yahtzee | chance
deriving DecidableEq

/-- The source's `categories` list: index `i` is the category tied to
state bit `i`. -/
def categories : List Cat :=
  [.ones, .twos, .threes, .fours, .fives, .sixes,
   .three_kind, .four_kind, .full_house, .small_straight,
   .large_straight, .yahtzee, .chance]

/-- The source's `upper_categories` dict: the pip value a top-section
category counts, `none` for lower-section categories. -/
def upper_categories : Cat → Option Nat
  | .ones => some 1
  | .twos => some 2
  | .threes => some 3
  | .fours => some 4
  | .fives => some 5
  | .sixes => some 6
  | _ => none

/-- Source `small_straights = {range(1,5), range(2,6), range(3,7)}`. -/
def small_straights : List (List Nat) := [[1, 2, 3, 4], [2, 3, 4, 5], [3, 4, 5, 6]]

/-- Source `large_straights = {range(1,6), range(2,7)}`. -/
def large_straights : List (List Nat) := [[1, 2, 3, 4, 5], [2, 3, 4, 5, 6]]

/-- The list comprehension `[pips.count(x) for x in die_spots]` used
throughout the source: the multiplicity of each face in a hand. -/
def pip_counts (pips : List Nat) : List Nat := die_spots.map (fun x => pips.count x)

/-- Python's `max` on a (nonempty) list of naturals. -/
def list_max (l : List Nat) : Nat := l.foldr max 0

/-- Method `DiceRoll.score_as`: the score a hand earns in a category.  The
source branches on the category name; `sorted(counts)[-1]`/`[-2]` become
indices 5 and 4 of the ascending insertion sort of the six counts. -/
def score_as (pips : List Nat) (cat : Cat) : Nat :=
  match upper_categories cat with
  | some v => (pips.filter (fun x => x == v)).sum
  | none =>
    match cat with
    | .three_kind => if 3 ≤ list_max (pip_counts pips) then pips.sum else 0
    | .four_kind => if 4 ≤ list_max (pip_counts pips) then pips.sum else 0
    | .full_house =>
        let c := List.insertionSort (fun a b => a ≤ b) (pip_counts pips)
        if c.getD 5 0 = 3 ∧ c.getD 4 0 = 2 then 25 else 0
    | .small_straight =>
        if small_straights.any (fun strt => strt.all (fun x => pips.contains x))
        then 30 else 0
    | .large_straight =>
        if large_straights.any (fun strt => strt.all (fun x => pips.contains x))
        then 40 else 0
    | .yahtzee => if list_max (pip_counts pips) = 5 then 50 else 0
    | .chance => pips.sum
    | _ => 0

/-- Method `DiceRoll.upper_score`: the amount a category adds to the
upper-section total — the category's score for a top-section category,
`0` otherwise. -/
def upper_contrib (pips : List Nat) (cat : Cat) : Nat :=
  match upper_categories cat with
  | some v => (pips.filter (fun x => x == v)).sum
  | none => 0

/-- Source `multinomial(lst)` (Reiner Martin's algorithm): `res, i = 1, 1`,
then for each `a` in `lst` and each `j` in `1..a`, `res = res * i
// j; i += 1`. -/
def multinomial (lst : List Nat) : Nat :=
  (lst.foldl
    (fun p a => (List.range a).foldl (fun q j => (q.1 * q.2 / (j + 1), q.2 + 1)) p)
    (1, 1)).1

/-- The kept pips: `[x for x, h in zip(R, hold) if h]`. -/
def keptList (R : List Nat) (hold : List Bool) : List Nat :=
  ((R.zip hold).filter (fun p => p.2)).map (fun p => p.1)

/-- Function `transition_probability(hold, R, S)`: the probability that hand `R`
becomes hand `S` when the positions marked in `hold` are kept and the
rest rerolled.  `need_counts` is the (integer) face-count difference; a
negative entry makes the move impossible, otherwise the probability is
`multinomial(need) / 6 ** sum(need)`. -/
def transition_probability (hold : List Bool) (R S : List Nat) : ℚ :=
  let kept := keptList R hold
  let kept_counts := pip_counts kept
  let S_counts := pip_counts S
  let need_counts := List.zipWith (fun (a b : Nat) => (a : Int) - (b : Int)) S_counts kept_counts
  if need_counts.any (fun n => n < 0) then 0
  else (multinomial (need_counts.map Int.toNat) : ℚ) / 6 ^ (need_counts.map Int.toNat).sum

/-- Python `combinations_with_replacement(faces, k)`: all non-decreasing
`k`-tuples over `faces`, in Python's lexicographic emission order (each
tuple starts with some face `a`, followed by a tuple over the faces from
`a` on). -/
def cwr : Nat → List Nat → List (List Nat)
  | 0, _ => [[]]
  | k + 1, faces => faces.tails.flatMap (fun s =>
      match s with
      | [] => []
      | a :: as => (cwr k (a :: as)).map (fun t => a :: t))

/-- The 252 sorted hands, in the order `combinations_with_replacement(die_spots, 5)`
enumerates them (the row/column order of the 252-indexed tensors). -/
def hands : List (List Nat) := cwr 5 die_spots

/-- Python `product([False, True], repeat=n)`: all `n`-tuples of booleans in
Python's order (leftmost position outermost, `False` before `True`). -/
def bool_tuples : Nat → List (List Bool)
  | 0 => [[]]
  | n + 1 => [false, true].flatMap (fun x => (bool_tuples n).map (fun t => x :: t))

/-- The 32 hold patterns, in the order `product([False, True], repeat=5)`
enumerates them: index 0 keeps nothing, index 31 keeps everything. -/
def holds : List (List Bool) := bool_tuples 5

/-- Hold pattern 0: keep none (reroll all five dice). -/
def hold_none : List Bool := [false, false, false, false, false]

/-- Hold pattern 31: keep all five dice. -/
def hold_all : List Bool := [true, true, true, true, true]

/-- Source `self.weight_vector = self.prop_tensor[0, 0, :]`: row `hold = 0`,
`R = hands[0] = (1,1,1,1,1)` of the transition tensor — the fresh-throw
distribution. -/
def weight_vector (S : List Nat) : ℚ :=
  transition_probability hold_none [1, 1, 1, 1, 1] S

/-- Module-level `upper_score(state) = state >> 13`. -/
def upper_score (state : Nat) : Nat := state >>> 13

/-- Module-level `open_cats(state) = state & 0x1FFF`. -/
def open_cats (state : Nat) : Nat := state &&& 0x1FFF

/-- Fuel-driven bit-count worker (structural recursion so that it
evaluates inside the kernel). -/
def pcAux : Nat → Nat → Nat
  | 0, _ => 0
  | _ + 1, 0 => 0
  | f + 1, n + 1 => pcAux f ((n + 1) / 2) + (n + 1) % 2

/-- Python `bin(x).count("1")`: the number of set bits of `x`. -/
def popcount (n : Nat) : Nat := pcAux n n

/-- The state reached from `state` by scoring a category at index `i`
whose upper contribution is `u`: the source's `new_upper = min(upper_total, 63)`,
`new_open = (state & ~(1 << i)) & 0x1FFF`, `new_state = new_upper << 13 | new_open`.
Python's infinite-precision complement `~(1 << i)` acts on `state & 0x1FFF`
exactly like the finite mask `0x1FFF ^^^ (1 <<< i)` does, for every `i`. -/
def new_state_of (u state i : Nat) : Nat :=
  let upper_total := upper_score state + u
  let new_upper := min upper_total 63
  let new_open := (state &&& (0x1FFF ^^^ (1 <<< i))) &&& 0x1FFF
  new_upper <<< 13 ||| new_open

/-- Method `DiceRoll.best_score(state, forward_scores)`: fold over
`enumerate(categories)`, and for every open bit take the better of the
running best and `forward_scores[new_state] + scores[cat]`, starting
from `best = 0`. -/
def best_score (pips : List Nat) (state : Nat) (forward_scores : Nat → ℚ) : ℚ :=
  categories.enum.foldl
    (fun best ic =>
      if state >>> ic.1 &&& 1 = 1 then
        max best
          (forward_scores (new_state_of (upper_contrib pips ic.2) state ic.1)
            + (score_as pips ic.2 : ℚ))
      else best)
    0

/-- Numpy's `.max(axis=0)` over a list of row values (the source's
arrays are nonempty; on `[]` we return 0). -/
def vec_max (l : List ℚ) : ℚ :=
  match l with
  | [] => 0
  | x :: xs => xs.foldl max x

/-- One component of `np.dot(self.prop_tensor, score_vector)`: row
`(hold, R)` of the tensor contracted with the vector `v` over the 252
hands. -/
def row_dot (hold : List Bool) (R : List Nat) (v : List Nat → ℚ) : ℚ :=
  (hands.map (fun S => transition_probability hold R S * v S)).sum

/-- Method `StateAnalyser.score_state`: terminal states pay the bonus; otherwise
build the must-score vector from `best_score`, apply the max-over-holds
contraction twice (`for i in range(2)`), and contract with the
fresh-throw weights. -/
def score_state (forward_values : Nat → ℚ) (state : Nat) : ℚ :=
  if open_cats state = 0 then
    (if upper_score state < 63 then 0 else 35)
  else
    let v0 : List Nat → ℚ := fun roll => best_score roll state forward_values
    let v1 : List Nat → ℚ := fun R => vec_max (holds.map (fun h => row_dot h R v0))
    let v2 : List Nat → ℚ := fun R => vec_max (holds.map (fun h => row_dot h R v1))
    (hands.map (fun S => weight_vector S * v2 S)).sum

/-- The states with exactly `k` open categories, in ascending numeric
order. -/
def states_with (k : Nat) : List Nat :=
  (List.range (2 ^ 19)).filter (fun s => popcount (open_cats s) == k)

/-- The iteration order of `evaluate_forward_values`:
`all_states.sort(key=lambda x: bin(x & 0x1FFF).count("1"))` — Python's
sort is stable on the ascending list `range(2**19)`, so the result is the
popcount classes in ascending popcount order, ascending numerically
within a class. -/
def all_states_sorted : List Nat :=
  (List.range 14).flatMap states_with

/-- Method `StateAnalyser.evaluate_forward_values`: fill the table in the sorted
order, each state receiving `score_state` of the table built so far.
(The source preinitialises the array with NaN; the initial entries are
never read before being written, so any initial value — here 0 —
models it.) -/
def evaluate_forward_values : Nat → ℚ :=
  all_states_sorted.foldl
    (fun V s => fun t => if t = s then score_state V s else V t)
    (fun _ => 0)

/-!
Spec-side definitions.  Each is written from the specification's words,
to be compared with the definitions above (which are embedded from the
source).  They are used by the refinement claims only.
-/

/-- Spec section 3 scoring table, stated from the spec's words:
upper categories sum the matching pips; three/four of a kind pay the
whole sum iff the maximum multiplicity is at least 3 resp. 4; full house
pays 25 iff some face appears exactly three times and another exactly
twice; the straights pay 30/40 iff the respective run is contained in
the hand; Yahtzee pays 50 iff all five pips are equal; chance always
pays the sum. -/
def spec_score (pips : List Nat) : Cat → Nat
  | .ones => (pips.filter (fun x => x == 1)).sum
  | .twos => (pips.filter (fun x => x == 2)).sum
  | .threes => (pips.filter (fun x => x == 3)).sum
  | .fours => (pips.filter (fun x => x == 4)).sum
  | .fives => (pips.filter (fun x => x == 5)).sum
  | .sixes => (pips.filter (fun x => x == 6)).sum
  | .three_kind => if die_spots.any (fun v => 3 ≤ pips.count v) then pips.sum else 0
  | .four_kind => if die_spots.any (fun v => 4 ≤ pips.count v) then pips.sum else 0
  | .full_house =>
      if (die_spots.any (fun v => pips.count v == 3))
          && (die_spots.any (fun v => pips.count v == 2)) then 25 else 0
  | .small_straight =>
      if small_straights.any (fun strt => strt.all (fun x => x ∈ pips)) then 30 else 0
  | .large_straight =>
      if large_straights.any (fun strt => strt.all (fun x => x ∈ pips)) then 40 else 0
  | .yahtzee => if pips.all (fun x => x == pips.headD 0) then 50 else 0
  | .chance => pips.sum

/-- The category/bit pairs that are open in `state`, in category order. -/
def open_enum (state : Nat) : List (Nat × Cat) :=
  categories.enum.filter (fun ic => decide (state >>> ic.1 &&& 1 = 1))

/-- Claim C1's per-category value, exactly as the claim words it:
`S[r, c] + bonus + V[new_state]` with `new_u = min(upper(s) + U[r, c], 63)`,
`bonus = 35` iff `new_u ≥ 63 > upper(s)`, and
`new_state = (new_u << 13) | (open(s) & ~(1 << c))`. -/
def claim_value (pips : List Nat) (state : Nat) (V : Nat → ℚ) (ic : Nat × Cat) : ℚ :=
  let new_u := min (upper_score state + upper_contrib pips ic.2) 63
  let bonus : ℚ := if 63 ≤ new_u ∧ upper_score state < 63 then 35 else 0
  (score_as pips ic.2 : ℚ) + bonus
    + V (new_u <<< 13 ||| (open_cats state &&& (0x1FFF ^^^ (1 <<< ic.1))))

/-- Claim C1's asserted result: the maximum of `claim_value` over the
open categories, `0` if none is open. -/
def claim_best_score (pips : List Nat) (state : Nat) (V : Nat → ℚ) : ℚ :=
  vec_max ((open_enum state).map (claim_value pips state V))

/-- The per-category value the code actually maximises: claim C1's
formula with the bonus term removed (the source adds no bonus inside
`best_score`; the 35 points flow in through `V` of the terminal states). -/
def amended_value (pips : List Nat) (state : Nat) (V : Nat → ℚ) (ic : Nat × Cat) : ℚ :=
  let new_u := min (upper_score state + upper_contrib pips ic.2) 63
  (score_as pips ic.2 : ℚ)
    + V (new_u <<< 13 ||| (open_cats state &&& (0x1FFF ^^^ (1 <<< ic.1))))

/-- The amended claim C1: maximum of the bonus-free values over the open
categories, `0` if none is open. -/
def amended_best_score (pips : List Nat) (state : Nat) (V : Nat → ℚ) : ℚ :=
  vec_max ((open_enum state).map (amended_value pips state V))

/-- Spec section 4.H, phase B: the expected total when the hand must be
scored immediately. -/
def phaseB (V : Nat → ℚ) (s : Nat) (r : List Nat) : ℚ := best_score r s V

/-- Spec section 4.H, phase C: one optional reroll left,
`C[r] = max_h Σ_s P[h, r, s] · B[s]`. -/
def phaseC (V : Nat → ℚ) (s : Nat) (r : List Nat) : ℚ :=
  vec_max (holds.map (fun h =>
    (hands.map (fun x => transition_probability h r x * phaseB V s x)).sum))

/-- Spec section 4.H, phase D: two optional rerolls left,
`D[r] = max_h Σ_s P[h, r, s] · C[s]`. -/
def phaseD (V : Nat → ℚ) (s : Nat) (r : List Nat) : ℚ :=
  vec_max (holds.map (fun h =>
    (hands.map (fun x => transition_probability h r x * phaseC V s x)).sum))

/-- Spec section 4.H, final phase: `V[s] = Σ_r w[r] · D[r]`. -/
def spec_phase_value (V : Nat → ℚ) (s : Nat) : ℚ :=
  (hands.map (fun r => weight_vector r * phaseD V s r)).sum

/-- All vectors of `n` naturals summing to `k` (an auxiliary enumeration
used to sum transition probabilities in closed form). -/
def countVectors : Nat → Nat → List (List Nat)
  | 0, k => if k = 0 then [[]] else []
  | n + 1, k => (List.range (k + 1)).flatMap
      (fun a => (countVectors n (k - a)).map (fun t => a :: t))

/-- All vectors of 6 naturals summing to at most 5: every possible
face-count vector of a kept sub-hand. -/
def sub_vectors : List (List Nat) := (List.range 6).flatMap (fun k => countVectors 6 k)

/-- Pointwise comparison of two count vectors. -/
def pointLe (t c : List Nat) : Bool := (t.zip c).all (fun p => p.1 ≤ p.2)

/-- Pointwise difference of two count vectors. -/
def sub_counts (c t : List Nat) : List Nat := List.zipWith (fun a b => a - b) c t

/-- The sum, over a list of count vectors `c`, of `F (c - t)` for the
vectors dominating `t` (the inner sum of a transition-tensor row). -/
def guarded_sum (F : List Nat → Nat) (t : List Nat) (cs : List (List Nat)) : Nat :=
  (cs.map (fun c => if pointLe t c then F (sub_counts c t) else 0)).sum

/-- Adjacent strict ascent of a list of naturals, as a boolean program
(kernel-computable stand-in for `List.Chain' (· < ·)`). -/
def ascending : List Nat → Bool
  | [] => true
  | [_] => true
  | a :: b :: rest => decide (a < b) && ascending (b :: rest)

/-- The spec's max-contraction operator `T : v ↦ max_h (P[h] · v)` (the
kernel applied twice inside `score_state`). -/
def contract_T (v : List Nat → ℚ) (r : List Nat) : ℚ :=
  vec_max (holds.map (fun h => row_dot h r v))


/-!
Generic lemmas about folded maxima (the shape of `best_score` and of the
numpy `max(axis=0)` reductions).
-/

lemma le_foldl_max (l : List ℚ) : ∀ c : ℚ, c ≤ l.foldl max c := by
  induction l with
  | nil => intro c; simp
  | cons x xs ih => intro c; exact le_trans (le_max_left c x) (ih (max c x))

lemma mem_le_foldl_max (l : List ℚ) (a : ℚ) (h : a ∈ l) : ∀ c, a ≤ l.foldl max c := by
  induction l with
  | nil => cases h
  | cons x xs ih =>
    intro c
    rcases List.mem_cons.1 h with rfl | hmem
    · exact le_trans (le_max_right c a) (le_foldl_max xs (max c a))
    · exact ih hmem (max c x)

lemma le_vec_max {l : List ℚ} {a : ℚ} (h : a ∈ l) : a ≤ vec_max l := by
  match l with
  | [] => cases h
  | x :: xs =>
    rcases List.mem_cons.1 h with rfl | hmem
    · exact le_foldl_max xs a
    · exact mem_le_foldl_max xs a hmem x

lemma foldl_max_comm (xs : List ℚ) : ∀ a b : ℚ, xs.foldl max (max a b) = max a (xs.foldl max b) := by
  induction xs with
  | nil => intro a b; simp
  | cons y ys ih =>
    intro a b
    simp only [List.foldl_cons]
    rw [max_assoc, ih]

lemma foldl_max_eq_vec_max (x : ℚ) (xs : List ℚ) (c : ℚ) :
    (x :: xs).foldl max c = max c (vec_max (x :: xs)) := by
  simp only [List.foldl_cons, vec_max]
  exact foldl_max_comm xs c x

lemma vec_max_nonneg {l : List ℚ} (hne : l ≠ []) (h : ∀ a ∈ l, 0 ≤ a) : 0 ≤ vec_max l := by
  match l with
  | [] => exact absurd rfl hne
  | x :: xs => exact le_trans (h x (List.mem_cons_self x xs)) (le_vec_max (List.mem_cons_self x xs))

lemma foldl_if_max {α : Type} (p : α → Prop) [DecidablePred p] (f : α → ℚ) :
    ∀ (l : List α) (c : ℚ),
      l.foldl (fun best a => if p a then max best (f a) else best) c
        = ((l.filter (fun a => decide (p a))).map f).foldl max c := by
  intro l
  induction l with
  | nil => intro c; rfl
  | cons x xs ih =>
    intro c
    by_cases h : p x
    · simp [List.filter_cons, h, ih]
    · simp [List.filter_cons, h, ih]

/-- A fold of guarded maxima starting at 0 is the maximum of the surviving
values whenever those are all nonnegative. -/
lemma foldl_if_max_eq_vec_max {α : Type} (p : α → Prop) [DecidablePred p] (f : α → ℚ)
    (l : List α) (hf : ∀ a ∈ l, p a → 0 ≤ f a) :
    l.foldl (fun best a => if p a then max best (f a) else best) 0
      = vec_max ((l.filter (fun a => decide (p a))).map f) := by
  rw [foldl_if_max]
  match hm : (l.filter (fun a => decide (p a))).map f with
  | [] => rfl
  | x :: xs =>
    rw [foldl_max_eq_vec_max, max_eq_right]
    refine vec_max_nonneg (by simp) ?_
    intro a ha
    rw [← hm] at ha
    rcases List.mem_map.1 ha with ⟨b, hb, rfl⟩
    rcases List.mem_filter.1 hb with ⟨hbl, hpb⟩
    exact hf b hbl (of_decide_eq_true hpb)

/-!
Bit-manipulation lemmas for the state encoding.
-/

lemma nat_and_right_comm (a x y : Nat) : (a &&& x) &&& y = (a &&& y) &&& x := by
  rw [Nat.and_assoc, Nat.and_assoc, Nat.and_comm x y]

/-- The source's `new_state` coincides with the claim's
`(new_u << 13) | (open(s) & ~(1 << c))` form. -/
lemma new_state_of_eq (u state i : Nat) :
    new_state_of u state i
      = min (upper_score state + u) 63 <<< 13
          ||| ((open_cats state) &&& (0x1FFF ^^^ (1 <<< i))) := by
  unfold new_state_of open_cats
  rw [nat_and_right_comm]

/-- Method `best_score` is the maximum of the bonus-free category values
over the open categories (and 0 when no category is open): claim C1
holds once its bonus term is removed. -/
lemma best_score_eq_amended (pips : List Nat) (state : Nat) (V : Nat → ℚ)
    (hV : ∀ t, 0 ≤ V t) :
    best_score pips state V = amended_best_score pips state V := by
  unfold best_score amended_best_score open_enum
  rw [foldl_if_max_eq_vec_max (fun ic : Nat × Cat => state >>> ic.1 &&& 1 = 1)
    (fun ic => V (new_state_of (upper_contrib pips ic.2) state ic.1) + (score_as pips ic.2 : ℚ))
    categories.enum (fun a _ _ => add_nonneg (hV _) (Nat.cast_nonneg _))]
  congr 1
  refine List.map_congr_left ?_
  intro ic _
  unfold amended_value
  rw [new_state_of_eq, add_comm]

/-!
Count-vector machinery: summing the transition probabilities of a row in
closed form.
-/

lemma countVectors_mem : ∀ (n k : Nat) (c : List Nat),
    c ∈ countVectors n k ↔ (c.length = n ∧ c.sum = k) := by
  intro n
  induction n with
  | zero =>
    intro k c
    unfold countVectors
    rcases k with _ | k <;> rcases c with _ | ⟨a, c⟩ <;> simp
  | succ n ih =>
    intro k c
    unfold countVectors
    simp only [List.mem_flatMap, List.mem_map, List.mem_range]
    constructor
    · rintro ⟨a, ha, t, ht, rfl⟩
      rcases (ih (k - a) t).1 ht with ⟨hl, hs⟩
      refine ⟨by simp [hl], by simp [hs]; omega⟩
    · rintro ⟨hl, hs⟩
      rcases c with _ | ⟨a, t⟩
      · simp at hl
      · simp only [List.length_cons, Nat.add_right_cancel_iff] at hl
        simp only [List.sum_cons] at hs
        exact ⟨a, by omega, t, (ih (k - a) t).2 ⟨hl, by omega⟩, rfl⟩

lemma pointLe_cons (a b : Nat) (t c : List Nat) :
    pointLe (a :: t) (b :: c) = (decide (a ≤ b) && pointLe t c) := rfl

lemma sub_counts_cons (b a : Nat) (c t : List Nat) :
    sub_counts (b :: c) (a :: t) = (b - a) :: sub_counts c t := rfl

lemma pointLe_sum_le : ∀ (t c : List Nat), t.length = c.length →
    pointLe t c = true → t.sum ≤ c.sum := by
  intro t
  induction t with
  | nil => intro c _ _; simp
  | cons a t ih =>
    intro c hl hp
    rcases c with _ | ⟨b, c⟩
    · simp at hl
    · rw [pointLe_cons] at hp
      rw [Bool.and_eq_true] at hp
      rcases hp with ⟨h1, h2⟩
      have hle := of_decide_eq_true h1
      have := ih c (by simpa using hl) h2
      simp only [List.sum_cons]
      omega

lemma pointLe_eq_of_sum_le : ∀ (t c : List Nat), t.length = c.length →
    pointLe t c = true → c.sum ≤ t.sum → t = c := by
  intro t
  induction t with
  | nil =>
    intro c hl _ _
    exact (List.length_eq_zero.1 hl.symm).symm
  | cons a t ih =>
    intro c hl hp hs
    rcases c with _ | ⟨b, c⟩
    · simp at hl
    · rw [pointLe_cons] at hp
      rw [Bool.and_eq_true] at hp
      rcases hp with ⟨h1, h2⟩
      have hab := of_decide_eq_true h1
      have hlen : t.length = c.length := by simpa using hl
      have hsums := pointLe_sum_le t c hlen h2
      simp only [List.sum_cons] at hs
      have hba : b = a := by omega
      subst hba
      rw [ih c hlen h2 (by omega)]

lemma sub_counts_sum : ∀ (t c : List Nat), t.length = c.length →
    pointLe t c = true → (sub_counts c t).sum = c.sum - t.sum := by
  intro t
  induction t with
  | nil =>
    intro c hl _
    have : c = [] := List.length_eq_zero.1 hl.symm
    subst this; rfl
  | cons a t ih =>
    intro c hl hp
    rcases c with _ | ⟨b, c⟩
    · simp at hl
    · rw [pointLe_cons] at hp
      rw [Bool.and_eq_true] at hp
      rcases hp with ⟨h1, h2⟩
      have hab := of_decide_eq_true h1
      have hlen : t.length = c.length := by simpa using hl
      have hsums := pointLe_sum_le t c hlen h2
      rw [sub_counts_cons]
      simp only [List.sum_cons, ih c hlen h2]
      omega

lemma pointLe_refl : ∀ (c : List Nat), pointLe c c = true := by
  intro c
  induction c with
  | nil => rfl
  | cons a c ih => rw [pointLe_cons, ih]; simp

lemma multinomial_ones : ∀ (l : List Nat) (p : Nat × Nat), (∀ x ∈ l, x = 0) →
    l.foldl (fun p a => (List.range a).foldl (fun q j => (q.1 * q.2 / (j + 1), q.2 + 1)) p) p = p := by
  intro l
  induction l with
  | nil => intro p _; rfl
  | cons a l ih =>
    intro p hz
    have ha : a = 0 := hz a (List.mem_cons_self a l)
    subst ha
    exact ih p (fun x hx => hz x (List.mem_cons_of_mem _ hx))

lemma multinomial_zeros (l : List Nat) (h : ∀ x ∈ l, x = 0) : multinomial l = 1 := by
  unfold multinomial
  rw [multinomial_ones l (1, 1) h]

lemma sub_counts_self_zero : ∀ (c : List Nat), ∀ x ∈ sub_counts c c, x = 0 := by
  intro c
  induction c with
  | nil => intro x hx; cases hx
  | cons a c ih =>
    intro x hx
    rw [sub_counts_cons] at hx
    rcases List.mem_cons.1 hx with rfl | hmem
    · omega
    · exact ih x hmem

lemma sub_counts_self_sum (c : List Nat) : (sub_counts c c).sum = 0 := by
  apply List.sum_eq_zero
  exact sub_counts_self_zero c

lemma sum_flatMap {α : Type} (l : List α) (f : α → List Nat) :
    (l.flatMap f).sum = (l.map (fun a => (f a).sum)).sum := by
  induction l with
  | nil => rfl
  | cons x xs ih => simp [List.flatMap_cons, List.sum_append, ih]

lemma guarded_sum_append (F : List Nat → Nat) (t : List Nat) (xs ys : List (List Nat)) :
    guarded_sum F t (xs ++ ys) = guarded_sum F t xs + guarded_sum F t ys := by
  simp [guarded_sum]

lemma guarded_sum_flatMap (F : List Nat → Nat) (t : List Nat) {α : Type}
    (l : List α) (f : α → List (List Nat)) :
    guarded_sum F t (l.flatMap f) = (l.map (fun a => guarded_sum F t (f a))).sum := by
  induction l with
  | nil => rfl
  | cons x xs ih => simp [List.flatMap_cons, guarded_sum_append, ih]

lemma guarded_sum_map_cons (F : List Nat → Nat) (a : Nat) (t : List Nat) (b : Nat)
    (cs : List (List Nat)) :
    guarded_sum F (a :: t) (cs.map (fun c => b :: c))
      = if a ≤ b then guarded_sum (fun l => F ((b - a) :: l)) t cs else 0 := by
  unfold guarded_sum
  rw [List.map_map]
  by_cases hab : a ≤ b
  · rw [if_pos hab]
    congr 1
    apply List.map_congr_left
    intro c _
    simp only [Function.comp_apply, pointLe_cons, sub_counts_cons, decide_eq_true hab,
      Bool.true_and]
  · rw [if_neg hab]
    apply List.sum_eq_zero
    intro x hx
    rcases List.mem_map.1 hx with ⟨c, _, rfl⟩
    simp only [Function.comp_apply, pointLe_cons]
    simp [hab]

lemma guarded_sum_zero_of_lt (F : List Nat → Nat) (n : Nat) (t : List Nat) (k : Nat)
    (hl : t.length = n) (hk : k < t.sum) :
    guarded_sum F t (countVectors n k) = 0 := by
  apply List.sum_eq_zero
  intro x hx
  rcases List.mem_map.1 hx with ⟨c, hc, rfl⟩
  rcases (countVectors_mem n k c).1 hc with ⟨hcl, hcs⟩
  cases hple : pointLe t c with
  | true =>
    have := pointLe_sum_le t c (by omega) hple
    omega
  | false => rw [if_neg (by simp [hple])]

lemma sum_map_range_window (g : Nat → Nat) (a m k : Nat) (h : a + m ≤ k)
    (hlow : ∀ j, j < a → g j = 0) (hhigh : ∀ j, a + m < j → j ≤ k → g j = 0) :
    ((List.range (k + 1)).map g).sum = ((List.range (m + 1)).map (fun b => g (a + b))).sum := by
  have h1 : k + 1 = a + (m + 1 + (k - a - m)) := by omega
  rw [h1, List.range_add, List.map_append, List.sum_append, List.map_map]
  have h2 : ((List.range a).map g).sum = 0 := by
    apply List.sum_eq_zero
    intro x hx
    rcases List.mem_map.1 hx with ⟨j, hj, rfl⟩
    exact hlow j (List.mem_range.1 hj)
  rw [h2, Nat.zero_add, List.range_add, List.map_append, List.sum_append, List.map_map]
  have h3 : ((List.range (k - a - m)).map ((g ∘ (a + ·)) ∘ (m + 1 + ·))).sum = 0 := by
    apply List.sum_eq_zero
    intro x hx
    rcases List.mem_map.1 hx with ⟨j, hj, rfl⟩
    have hjr := List.mem_range.1 hj
    exact hhigh _ (by simp only [Function.comp_apply]; omega)
      (by simp only [Function.comp_apply]; omega)
  rw [h3, Nat.add_zero]
  apply congrArg
  apply List.map_congr_left
  intro b _
  rfl

lemma guarded_sum_shift : ∀ (n : Nat) (t : List Nat) (k : Nat) (F : List Nat → Nat),
    t.length = n → t.sum ≤ k →
    guarded_sum F t (countVectors n k) = ((countVectors n (k - t.sum)).map F).sum := by
  intro n
  induction n with
  | zero =>
    intro t k F hl _
    have ht : t = [] := List.length_eq_zero.1 hl
    subst ht
    simp only [List.sum_nil, Nat.sub_zero]
    unfold guarded_sum
    congr 1
    apply List.map_congr_left
    intro c hc
    rcases (countVectors_mem 0 k c).1 hc with ⟨hcl, _⟩
    have : c = [] := List.length_eq_zero.1 hcl
    subst this
    rfl
  | succ n ih =>
    intro t k F hl hs
    rcases t with _ | ⟨a, t⟩
    · simp at hl
    have hlt : t.length = n := by simpa using hl
    have hsum : a + t.sum ≤ k := by simpa using hs
    show guarded_sum F (a :: t) (countVectors (n + 1) k) = _
    have hcv : countVectors (n + 1) k
        = (List.range (k + 1)).flatMap
            (fun b => (countVectors n (k - b)).map (fun c => b :: c)) := rfl
    rw [hcv, guarded_sum_flatMap]
    set g : Nat → Nat :=
      fun b => guarded_sum F (a :: t) ((countVectors n (k - b)).map (fun c => b :: c)) with hg
    set m : Nat := k - a - t.sum with hm
    have hgval : ∀ b, a ≤ b → b ≤ a + m →
        g b = ((countVectors n (k - b - t.sum)).map (fun l => F ((b - a) :: l))).sum := by
      intro b hab hbm
      rw [hg]
      simp only
      rw [guarded_sum_map_cons, if_pos hab]
      exact ih t (k - b) (fun l => F ((b - a) :: l)) hlt (by omega)
    have hlow : ∀ b, b < a → g b = 0 := by
      intro b hb
      rw [hg]
      simp only
      rw [guarded_sum_map_cons, if_neg (by omega)]
    have hhigh : ∀ b, a + m < b → b ≤ k → g b = 0 := by
      intro b hb hbk
      rw [hg]
      simp only
      rw [guarded_sum_map_cons]
      by_cases hab : a ≤ b
      · rw [if_pos hab]
        exact guarded_sum_zero_of_lt _ n t (k - b) hlt (by omega)
      · rw [if_neg hab]
    rw [sum_map_range_window g a m k (by omega) hlow hhigh]
    have hrhs : countVectors (n + 1) (k - (a :: t).sum)
        = (List.range (m + 1)).flatMap
            (fun b => (countVectors n (m - b)).map (fun c => b :: c)) := by
      have : k - (a :: t).sum = m := by simp only [List.sum_cons, hm]; omega
      rw [this]
      rfl
    rw [hrhs, List.map_flatMap, sum_flatMap]
    apply congrArg
    apply List.map_congr_left
    intro b hb
    have hbm : b ≤ m := by
      have := List.mem_range.1 hb
      omega
    rw [hgval (a + b) (by omega) (by omega)]
    rw [List.map_map]
    have harg : k - (a + b) - t.sum = m - b := by omega
    rw [harg]
    apply congrArg
    apply List.map_congr_left
    intro l _
    simp only [Function.comp_apply, Nat.add_sub_cancel_left]

/-!
From the transition probability of the source to guarded sums.
-/

lemma any_neg_eq_not_pointLe : ∀ (c t : List Nat),
    (List.zipWith (fun (a b : Nat) => (a : Int) - (b : Int)) c t).any (fun n => decide (n < 0))
      = !(pointLe t c) := by
  intro c
  induction c with
  | nil => intro t; cases t <;> rfl
  | cons b c ih =>
    intro t
    rcases t with _ | ⟨a, t⟩
    · rfl
    · simp only [List.zipWith_cons_cons, List.any_cons, ih, pointLe_cons, Bool.not_and]
      have hda : decide ((b : Int) - (a : Int) < 0) = !decide (a ≤ b) := by
        rcases le_or_lt a b with hab | hab
        · rw [decide_eq_true hab, Bool.not_true]
          exact decide_eq_false (by omega)
        · rw [decide_eq_false (by omega : ¬ a ≤ b), Bool.not_false]
          exact decide_eq_true (by omega)
      rw [hda]

lemma map_toNat_eq_sub_counts : ∀ (c t : List Nat),
    (List.zipWith (fun (a b : Nat) => (a : Int) - (b : Int)) c t).map Int.toNat = sub_counts c t := by
  intro c
  induction c with
  | nil => intro t; cases t <;> rfl
  | cons b c ih =>
    intro t
    rcases t with _ | ⟨a, t⟩
    · rfl
    · simp only [List.zipWith_cons_cons, List.map_cons, sub_counts_cons, ih]
      congr 1
      exact Int.toNat_sub b a

/-- Function `transition_probability` in count-vector form. -/
lemma transition_probability_eq (hold : List Bool) (R S : List Nat) :
    transition_probability hold R S
      = if pointLe (pip_counts (keptList R hold)) (pip_counts S)
        then (multinomial (sub_counts (pip_counts S) (pip_counts (keptList R hold))) : ℚ)
              / 6 ^ (sub_counts (pip_counts S) (pip_counts (keptList R hold))).sum
        else 0 := by
  unfold transition_probability
  simp only [any_neg_eq_not_pointLe, map_toNat_eq_sub_counts]
  cases hple : pointLe (pip_counts (keptList R hold)) (pip_counts S) <;> simp [hple]

lemma transition_probability_nonneg (hold : List Bool) (R S : List Nat) :
    0 ≤ transition_probability hold R S := by
  rw [transition_probability_eq]
  split
  · positivity
  · exact le_refl 0

/-!
Face-count bookkeeping.
-/

lemma pip_counts_length (l : List Nat) : (pip_counts l).length = 6 := by
  simp [pip_counts, die_spots]

lemma sum_map_add {α : Type} (l : List α) (f g : α → Nat) :
    (l.map (fun x => f x + g x)).sum = (l.map f).sum + (l.map g).sum := by
  induction l with
  | nil => rfl
  | cons x xs ih => simp only [List.map_cons, List.sum_cons, ih]; omega

lemma sum_map_ite_not_mem : ∀ (l : List Nat) (y : Nat), y ∉ l →
    (l.map (fun x => if y == x then 1 else 0)).sum = 0 := by
  intro l
  induction l with
  | nil => intro y _; rfl
  | cons x xs ih =>
    intro y hy
    have hxy : ¬(y == x) = true := by
      simp only [beq_iff_eq]
      intro h
      exact hy (h ▸ List.mem_cons_self x xs)
    simp only [List.map_cons, List.sum_cons, if_neg hxy, Nat.zero_add]
    exact ih y (fun h => hy (List.mem_cons_of_mem _ h))

lemma sum_map_ite_mem : ∀ (l : List Nat) (y : Nat), l.Nodup → y ∈ l →
    (l.map (fun x => if y == x then 1 else 0)).sum = 1 := by
  intro l
  induction l with
  | nil => intro y _ hy; cases hy
  | cons x xs ih =>
    intro y hnd hy
    rcases List.mem_cons.1 hy with rfl | hmem
    · simp only [List.map_cons, List.sum_cons, if_pos (beq_self_eq_true y)]
      rw [sum_map_ite_not_mem xs y (List.Nodup.not_mem hnd), Nat.add_zero]
    · have hxy : ¬(y == x) = true := by
        simp only [beq_iff_eq]
        rintro rfl
        exact List.Nodup.not_mem hnd hmem
      simp only [List.map_cons, List.sum_cons, if_neg hxy, Nat.zero_add]
      exact ih y (List.Nodup.of_cons hnd) hmem

lemma pip_counts_sum : ∀ (l : List Nat), (∀ x ∈ l, x ∈ die_spots) →
    (pip_counts l).sum = l.length := by
  intro l
  induction l with
  | nil => intro _; rfl
  | cons y l ih =>
    intro hmem
    have h1 : pip_counts (y :: l)
        = die_spots.map (fun x => l.count x + if y == x then 1 else 0) := by
      unfold pip_counts
      apply List.map_congr_left
      intro x _
      rw [List.count_cons]
    rw [h1, sum_map_add]
    have h2 := ih (fun x hx => hmem x (List.mem_cons_of_mem _ hx))
    unfold pip_counts at h2
    rw [h2, sum_map_ite_mem die_spots y (by decide) (hmem y (List.mem_cons_self y l))]
    simp

lemma keptList_subset (R : List Nat) (hold : List Bool) :
    ∀ x ∈ keptList R hold, x ∈ R := by
  intro x hx
  unfold keptList at hx
  rcases List.mem_map.1 hx with ⟨p, hp, rfl⟩
  exact (List.of_mem_zip (List.mem_filter.1 hp).1).1

lemma keptList_length_le (R : List Nat) (hold : List Bool) :
    (keptList R hold).length ≤ R.length := by
  unfold keptList
  rw [List.length_map]
  exact le_trans (List.length_filter_le _ _) (by rw [List.length_zip]; omega)

/-!
Computational facts about the 252 hands and the count-vector enumeration.
-/

lemma hands_mem_facts : ∀ S ∈ hands, S.length = 5 ∧ ∀ x ∈ S, x ∈ die_spots := by decide

lemma ascending_chain : ∀ l : List Nat, ascending l = true →
    List.Chain' (fun a b => a < b) l := by
  intro l
  induction l with
  | nil => intro _; exact List.chain'_nil
  | cons a l ih =>
    intro h
    rcases l with _ | ⟨b, rest⟩
    · simp
    · rw [show ascending (a :: b :: rest) = (decide (a < b) && ascending (b :: rest)) from rfl,
        Bool.and_eq_true] at h
      exact List.Chain'.cons (of_decide_eq_true h.1) (ih h.2)

lemma nodup_of_ascending_keys (f : List Nat → Nat) (l : List (List Nat))
    (h : ascending (l.map f) = true) : l.Nodup := by
  have hp := List.chain'_iff_pairwise.1 (ascending_chain _ h)
  exact List.Nodup.of_map _ (hp.imp (fun h => Nat.ne_of_lt h))

lemma hands_key_sorted :
    ascending (hands.map (fun h => h.foldl (fun acc d => acc * 7 + d) 0)) = true := by decide

lemma hands_nodup : hands.Nodup :=
  nodup_of_ascending_keys _ _ hands_key_sorted

lemma cv_key_sorted :
    ascending ((countVectors 6 5).map (fun c => c.foldl (fun acc d => acc * 6 + d) 0)) = true := by
  decide

lemma cv55_nodup : (countVectors 6 5).Nodup :=
  nodup_of_ascending_keys _ _ cv_key_sorted

lemma hands_counts_eq : hands.map pip_counts = (countVectors 6 5).reverse := by decide

lemma hands_counts_nodup : (hands.map pip_counts).Nodup := by
  rw [hands_counts_eq]
  exact List.nodup_reverse.2 cv55_nodup

lemma hands_counts_perm : (hands.map pip_counts).Perm (countVectors 6 5) := by
  rw [hands_counts_eq]
  exact List.reverse_perm _

lemma cv_mult_sum : ∀ kk < 6, ((countVectors 6 kk).map multinomial).sum = 6 ^ kk := by decide

lemma guarded_sum_perm (F : List Nat → Nat) (t : List Nat) {cs cs' : List (List Nat)}
    (h : cs.Perm cs') : guarded_sum F t cs = guarded_sum F t cs' := by
  unfold guarded_sum
  exact (h.map _).sum_eq

/-- Row-sum invariant: starting from any hand over the die faces, the
transition probabilities over the 252 target hands sum to exactly 1. -/
lemma row_sum_one (hold : List Bool) (R : List Nat) (hR : R ∈ hands) :
    (hands.map (fun S => transition_probability hold R S)).sum = 1 := by
  have hRf := hands_mem_facts R hR
  set t := pip_counts (keptList R hold) with ht
  have hkmem : ∀ x ∈ keptList R hold, x ∈ die_spots :=
    fun x hx => hRf.2 x (keptList_subset R hold x hx)
  have htsum : t.sum = (keptList R hold).length := pip_counts_sum _ hkmem
  have htle : t.sum ≤ 5 := by
    rw [htsum]
    exact le_trans (keptList_length_le R hold) (le_of_eq hRf.1)
  have htlen : t.length = 6 := pip_counts_length _
  have hterm : ∀ S ∈ hands, transition_probability hold R S
      = ((if pointLe t (pip_counts S) then multinomial (sub_counts (pip_counts S) t)
          else 0 : Nat) : ℚ) / 6 ^ (5 - t.sum) := by
    intro S hS
    rw [transition_probability_eq, ← ht]
    cases hple : pointLe t (pip_counts S) with
    | true =>
      have hSf := hands_mem_facts S hS
      have hSsum : (pip_counts S).sum = 5 := by
        rw [pip_counts_sum S hSf.2, hSf.1]
      have hexp : (sub_counts (pip_counts S) t).sum = 5 - t.sum := by
        rw [sub_counts_sum t (pip_counts S) (by rw [htlen, pip_counts_length]) hple, hSsum]
      rw [if_pos rfl, if_pos rfl, hexp]
    | false =>
      rw [if_neg (by simp), if_neg (by simp)]
      simp
  rw [List.map_congr_left hterm]
  have hcast : (hands.map (fun S =>
      ((if pointLe t (pip_counts S) then multinomial (sub_counts (pip_counts S) t)
        else 0 : Nat) : ℚ) / 6 ^ (5 - t.sum))).sum
      = ((hands.map (fun S =>
          if pointLe t (pip_counts S) then multinomial (sub_counts (pip_counts S) t)
          else 0)).sum : ℚ) / 6 ^ (5 - t.sum) := by
    generalize hands = l
    induction l with
    | nil => simp
    | cons x xs ih =>
      simp only [List.map_cons, List.sum_cons, ih, Nat.cast_add, add_div]
  rw [hcast]
  have hnat : (hands.map (fun S =>
      if pointLe t (pip_counts S) then multinomial (sub_counts (pip_counts S) t)
      else 0)).sum = 6 ^ (5 - t.sum) := by
    have h1 : hands.map (fun S =>
        if pointLe t (pip_counts S) then multinomial (sub_counts (pip_counts S) t) else 0)
        = (hands.map pip_counts).map
            (fun c => if pointLe t c then multinomial (sub_counts c t) else 0) := by
      rw [List.map_map]
      rfl
    rw [h1]
    rw [show ((hands.map pip_counts).map
        (fun c => if pointLe t c then multinomial (sub_counts c t) else 0)).sum
        = guarded_sum multinomial t (hands.map pip_counts) from rfl]
    rw [guarded_sum_perm multinomial t hands_counts_perm]
    rw [guarded_sum_shift 6 t 5 multinomial htlen htle]
    exact cv_mult_sum (5 - t.sum) (by omega)
  rw [hnat]
  push_cast
  exact div_self (by positivity)

/-!
The keep-all row of the transition tensor is a point mass.
-/

lemma keptList_hold_all : ∀ R ∈ hands, keptList R hold_all = R := by decide

lemma hold_all_mem : hold_all ∈ holds := by decide

lemma hold_none_mem : hold_none ∈ holds := by decide

lemma transition_probability_hold_all (R S : List Nat) (hR : R ∈ hands) (hS : S ∈ hands) :
    transition_probability hold_all R S = if S = R then 1 else 0 := by
  rw [transition_probability_eq, keptList_hold_all R hR]
  by_cases hSR : S = R
  · subst hSR
    rw [if_pos (pointLe_refl _), if_pos rfl]
    rw [multinomial_zeros _ (sub_counts_self_zero _), sub_counts_self_sum]
    norm_num
  · rw [if_neg hSR]
    cases hple : pointLe (pip_counts R) (pip_counts S) with
    | false => rw [if_neg (by simp)]
    | true =>
      exfalso
      have hRf := hands_mem_facts R hR
      have hSf := hands_mem_facts S hS
      have hlen : (pip_counts R).length = (pip_counts S).length := by
        rw [pip_counts_length, pip_counts_length]
      have hsR : (pip_counts R).sum = 5 := by rw [pip_counts_sum R hRf.2, hRf.1]
      have hsS : (pip_counts S).sum = 5 := by rw [pip_counts_sum S hSf.2, hSf.1]
      have heq : pip_counts R = pip_counts S :=
        pointLe_eq_of_sum_le _ _ hlen hple (by omega)
      exact hSR (List.inj_on_of_nodup_map hands_counts_nodup hS hR heq.symm)

lemma sum_pointmass (v : List Nat → ℚ) : ∀ (l : List (List Nat)), l.Nodup → ∀ R ∈ l,
    (l.map (fun S => (if S = R then 1 else 0 : ℚ) * v S)).sum = v R := by
  intro l
  induction l with
  | nil => intro _ R hR; cases hR
  | cons x xs ih =>
    intro hnd R hR
    rcases List.mem_cons.1 hR with rfl | hmem
    · simp only [List.map_cons, List.sum_cons, if_pos rfl, one_mul]
      have hzero : (xs.map (fun S => (if S = R then 1 else 0 : ℚ) * v S)).sum = 0 := by
        apply List.sum_eq_zero
        intro y hy
        rcases List.mem_map.1 hy with ⟨S, hS, rfl⟩
        rw [if_neg, zero_mul]
        rintro rfl
        exact (List.Nodup.not_mem hnd) hS
      rw [hzero, add_zero]
      simp
    · have hxR : ¬ x = R := by
        rintro rfl
        exact (List.Nodup.not_mem hnd) hmem
      simp only [List.map_cons, List.sum_cons, if_neg hxR, zero_mul, zero_add]
      exact ih (List.Nodup.of_cons hnd) R hmem

lemma row_dot_hold_all (R : List Nat) (hR : R ∈ hands) (v : List Nat → ℚ) :
    row_dot hold_all R v = v R := by
  unfold row_dot
  rw [List.map_congr_left
    (fun S hS => by rw [transition_probability_hold_all R S hR hS])]
  exact sum_pointmass v hands hands_nodup R hR

/-- The reroll floor: the keep-all hold is always available, so one
application of the contraction dominates the input vector. -/
lemma le_contract_T (v : List Nat → ℚ) (r : List Nat) (hr : r ∈ hands) :
    v r ≤ contract_T v r := by
  have hmem : row_dot hold_all r v ∈ holds.map (fun h => row_dot h r v) :=
    List.mem_map_of_mem _ hold_all_mem
  have := le_vec_max hmem
  rwa [row_dot_hold_all r hr v] at this

/-!
The dynamic-programming driver: write-once evaluation order.
-/

lemma fold_step_not_mem : ∀ (L : List Nat) (V : Nat → ℚ) (s : Nat), s ∉ L →
    (L.foldl (fun V t => fun u => if u = t then score_state V t else V u) V) s = V s := by
  intro L
  induction L with
  | nil => intro V s _; rfl
  | cons t L ih =>
    intro V s hs
    rw [List.foldl_cons]
    rw [ih _ s (fun h => hs (List.mem_cons_of_mem _ h))]
    rw [if_neg (fun h => hs (by rw [h]; exact List.mem_cons_self t L))]

lemma fold_step_write : ∀ (L : List Nat) (V : Nat → ℚ) (s : Nat), L.count s = 1 →
    ∃ W, (L.foldl (fun V t => fun u => if u = t then score_state V t else V u) V) s
      = score_state W s := by
  intro L
  induction L with
  | nil => intro V s h; simp at h
  | cons t L ih =>
    intro V s h
    rw [List.count_cons] at h
    by_cases hts : s = t
    · subst hts
      simp only [beq_self_eq_true, if_true] at h
      have hnot : s ∉ L := List.count_eq_zero.1 (by omega)
      refine ⟨V, ?_⟩
      rw [List.foldl_cons, fold_step_not_mem L _ s hnot, if_pos rfl]
    · simp only [beq_iff_eq] at h
      rw [if_neg (fun hh => hts hh.symm)] at h
      rw [List.foldl_cons]
      exact ih _ s (by omega)

/-!
Popcount: fuel independence, binary recursion, bit-sum form.
-/

lemma pcAux_zero : ∀ f, pcAux f 0 = 0 := by
  intro f
  cases f <;> rfl

lemma pcAux_congr : ∀ (n f g : Nat), n ≤ f → n ≤ g → pcAux f n = pcAux g n := by
  intro n
  induction n using Nat.strong_induction_on with
  | _ n ih =>
    intro f g hf hg
    rcases n with _ | m
    · rw [pcAux_zero, pcAux_zero]
    · rcases f with _ | fa
      · omega
      rcases g with _ | ga
      · omega
      show pcAux fa ((m + 1) / 2) + (m + 1) % 2 = pcAux ga ((m + 1) / 2) + (m + 1) % 2
      rw [ih ((m + 1) / 2) (by omega) fa ga (by omega) (by omega)]

lemma popcount_succ (n : Nat) :
    popcount (n + 1) = popcount ((n + 1) / 2) + (n + 1) % 2 := by
  show pcAux (n + 1) (n + 1) = popcount ((n + 1) / 2) + (n + 1) % 2
  rw [show pcAux (n + 1) (n + 1) = pcAux n ((n + 1) / 2) + (n + 1) % 2 from rfl]
  unfold popcount
  rw [pcAux_congr ((n + 1) / 2) n ((n + 1) / 2) (by omega) (le_refl _)]

lemma popcount_eq_sum_testBit : ∀ (w n : Nat), n < 2 ^ w →
    popcount n = ∑ j ∈ Finset.range w, (n.testBit j).toNat := by
  intro w
  induction w with
  | zero =>
    intro n hn
    have hn0 : n = 0 := by simpa using hn
    subst hn0
    simp [popcount, pcAux]
  | succ w ih =>
    intro n hn
    rcases n with _ | m
    · rw [show popcount 0 = 0 from rfl]
      simp [Nat.zero_testBit]
    · rw [popcount_succ, Finset.sum_range_succ']
      have hdiv : (m + 1) / 2 < 2 ^ w := by
        have h2 : (2 : Nat) ^ (w + 1) = 2 ^ w * 2 := by rw [Nat.pow_succ]
        omega
      rw [ih _ hdiv]
      congr 1
      · apply Finset.sum_congr rfl
        intro j _
        rw [Nat.testBit_add_one]
      · rw [Nat.testBit_zero]
        rcases Nat.mod_two_eq_zero_or_one (m + 1) with h | h <;> rw [h] <;> rfl

lemma popcount_le_of_lt (w n : Nat) (h : n < 2 ^ w) : popcount n ≤ w := by
  rw [popcount_eq_sum_testBit w n h]
  calc ∑ j ∈ Finset.range w, (n.testBit j).toNat
      ≤ ∑ _j ∈ Finset.range w, 1 := Finset.sum_le_sum (fun j _ => Bool.toNat_le _)
    _ = w := by simp

lemma bit_test_iff (x i : Nat) : (x >>> i &&& 1 = 1) ↔ x.testBit i = true := by
  rw [Nat.and_one_is_mod, Nat.testBit_to_div_mod, Nat.shiftRight_eq_div_pow]
  simp

lemma eq_8191 : (8191 : Nat) = 2 ^ 13 - 1 := by norm_num

lemma testBit_8191 (j : Nat) : Nat.testBit 8191 j = decide (j < 13) := by
  rw [eq_8191]
  exact Nat.testBit_two_pow_sub_one 13 j

lemma open_cats_lt (state : Nat) : open_cats state < 2 ^ 13 := by
  unfold open_cats
  have := Nat.and_le_right (n := state) (m := 0x1FFF)
  omega

lemma popcount_open_le (state : Nat) : popcount (open_cats state) ≤ 13 :=
  popcount_le_of_lt 13 _ (open_cats_lt state)

/-- Clearing a set bit strictly decreases the popcount. -/
lemma popcount_clear_lt (m i : Nat) (hm : m < 2 ^ 13) (hi : i < 13)
    (hbit : m.testBit i = true) :
    popcount ((m &&& (8191 ^^^ (1 <<< i))) &&& 8191) < popcount m := by
  set m' := (m &&& (8191 ^^^ (1 <<< i))) &&& 8191 with hm'
  have hm'lt : m' < 2 ^ 13 := by
    have : m' ≤ 8191 := by rw [hm']; exact Nat.and_le_right
    omega
  rw [popcount_eq_sum_testBit 13 m hm, popcount_eq_sum_testBit 13 m' hm'lt]
  have htb : ∀ j, j < 13 → m'.testBit j = (m.testBit j && !(decide (i = j))) := by
    intro j hj
    rw [hm', Nat.testBit_and, Nat.testBit_and, Nat.testBit_xor, testBit_8191,
      Nat.one_shiftLeft, Nat.testBit_two_pow, decide_eq_true hj]
    cases m.testBit j <;> cases hd : decide (i = j) <;> simp
  have hin : i ∈ Finset.range 13 := Finset.mem_range.2 hi
  rw [← Finset.sum_erase_add _ _ hin, ← Finset.sum_erase_add _ _ hin]
  have h1 : ∀ j ∈ (Finset.range 13).erase i,
      (m'.testBit j).toNat = (m.testBit j).toNat := by
    intro j hj
    rcases Finset.mem_erase.1 hj with ⟨hne, hjr⟩
    rw [htb j (Finset.mem_range.1 hjr), decide_eq_false (fun h => hne h.symm)]
    simp
  rw [Finset.sum_congr rfl h1]
  have h2 : (m'.testBit i).toNat = 0 := by
    rw [htb i hi, decide_eq_true (rfl : i = i)]
    simp
  rw [h2, hbit]
  simp

lemma or_shift_and_8191 (u b : Nat) (hb : b < 2 ^ 13) :
    (u <<< 13 ||| b) &&& 8191 = b := by
  apply Nat.eq_of_testBit_eq
  intro j
  rw [Nat.testBit_and, Nat.testBit_lor, testBit_8191, Nat.testBit_shiftLeft]
  by_cases hj : j < 13
  · rw [decide_eq_true hj, decide_eq_false (by omega : ¬ 13 ≤ j)]
    simp
  · rw [decide_eq_false hj]
    have hbj : b.testBit j = false :=
      Nat.testBit_lt_two_pow
        (lt_of_lt_of_le hb (Nat.pow_le_pow_right (by omega) (by omega)))
    rw [hbj]
    simp

lemma open_cats_new_state (u state i : Nat) :
    open_cats (new_state_of u state i)
      = (state &&& (8191 ^^^ (1 <<< i))) &&& 8191 := by
  show ((min (upper_score state + u) 63) <<< 13
    ||| ((state &&& (8191 ^^^ (1 <<< i))) &&& 8191)) &&& 8191
    = (state &&& (8191 ^^^ (1 <<< i))) &&& 8191
  apply or_shift_and_8191
  have : (state &&& (8191 ^^^ (1 <<< i))) &&& 8191 ≤ 8191 := Nat.and_le_right
  omega

/-- Scoring an open category strictly decreases the popcount of the open
mask: the topological-order invariant of the dynamic program. -/
lemma popcount_new_state_lt (u state i : Nat) (hi : i < 13)
    (hbit : state >>> i &&& 1 = 1) :
    popcount (open_cats (new_state_of u state i)) < popcount (open_cats state) := by
  rw [open_cats_new_state]
  rw [nat_and_right_comm state (8191 ^^^ (1 <<< i)) 8191]
  have hlt : (state &&& 8191) &&& (8191 ^^^ (1 <<< i)) < 2 ^ 13 := by
    have : (state &&& 8191) &&& (8191 ^^^ (1 <<< i)) ≤ state &&& 8191 := Nat.and_le_left
    have h2 := Nat.and_le_right (n := state) (m := 8191)
    omega
  rw [show (state &&& 8191) &&& (8191 ^^^ (1 <<< i))
      = ((state &&& 8191) &&& (8191 ^^^ (1 <<< i))) &&& 8191 from by
    rw [eq_8191]
    exact (Nat.and_pow_two_sub_one_of_lt_two_pow hlt).symm]
  apply popcount_clear_lt (state &&& 8191) i (by
    have := Nat.and_le_right (n := state) (m := 8191)
    omega) hi
  rw [Nat.testBit_and, testBit_8191, decide_eq_true hi]
  rw [(bit_test_iff state i).1 hbit]
  rfl

/-!
The popcount-sorted state list: coverage, order, and splitting.
-/

lemma count_flatMap {α β : Type} [DecidableEq β] (l : List α) (f : α → List β) (b : β) :
    (l.flatMap f).count b = (l.map (fun a => (f a).count b)).sum := by
  induction l with
  | nil => rfl
  | cons x xs ih => simp [List.flatMap_cons, List.count_append, ih]

lemma count_eq_one_of_nodup_mem {α : Type} [DecidableEq α] :
    ∀ (l : List α) (a : α), l.Nodup → a ∈ l → l.count a = 1 := by
  intro l
  induction l with
  | nil => intro a _ ha; cases ha
  | cons x xs ih =>
    intro a hnd ha
    rw [List.count_cons]
    rcases List.mem_cons.1 ha with rfl | hmem
    · rw [List.count_eq_zero.2 (List.Nodup.not_mem hnd)]
      simp
    · have hax : ¬ a = x := by
        rintro rfl
        exact List.Nodup.not_mem hnd hmem
      have hxa : ¬ x = a := fun h => hax h.symm
      rw [ih a (List.Nodup.of_cons hnd) hmem]
      simp [hxa]

lemma mem_states_with (s k : Nat) :
    s ∈ states_with k ↔ (s < 2 ^ 19 ∧ popcount (open_cats s) = k) := by
  unfold states_with
  rw [List.mem_filter, List.mem_range]
  simp

lemma count_states_with (s k : Nat) :
    (states_with k).count s
      = if popcount (open_cats s) = k ∧ s < 2 ^ 19 then 1 else 0 := by
  by_cases h : popcount (open_cats s) = k ∧ s < 2 ^ 19
  · rw [if_pos h]
    apply count_eq_one_of_nodup_mem
    · exact List.Nodup.filter _ (List.nodup_range _)
    · exact (mem_states_with s k).2 ⟨h.2, h.1⟩
  · rw [if_neg h]
    apply List.count_eq_zero.2
    intro hmem
    rcases (mem_states_with s k).1 hmem with ⟨h1, h2⟩
    exact h ⟨h2, h1⟩

lemma sum_map_ite_range_zero : ∀ (n k0 : Nat), n ≤ k0 →
    ((List.range n).map (fun k => if k0 = k then (1 : Nat) else 0)).sum = 0 := by
  intro n k0 h
  apply List.sum_eq_zero
  intro x hx
  rcases List.mem_map.1 hx with ⟨j, hj, rfl⟩
  rw [if_neg (by have := List.mem_range.1 hj; omega)]

lemma sum_map_ite_range : ∀ (n k0 : Nat), k0 < n →
    ((List.range n).map (fun k => if k0 = k then (1 : Nat) else 0)).sum = 1 := by
  intro n
  induction n with
  | zero => intro k0 h; omega
  | succ n ih =>
    intro k0 h
    rw [List.range_succ, List.map_append, List.sum_append]
    by_cases hk : k0 = n
    · subst hk
      rw [sum_map_ite_range_zero _ k0 (le_refl _)]
      simp
    · rw [ih k0 (by omega)]
      simp [hk]

/-- Every 19-bit state is listed exactly once by the iteration order. -/
lemma states_count_one (s : Nat) (hs : s < 2 ^ 19) : all_states_sorted.count s = 1 := by
  unfold all_states_sorted
  rw [count_flatMap]
  rw [List.map_congr_left (fun k _ => count_states_with s k)]
  have hstep : ∀ k ∈ List.range 14,
      (if popcount (open_cats s) = k ∧ s < 2 ^ 19 then (1 : Nat) else 0)
        = (if popcount (open_cats s) = k then (1 : Nat) else 0) := by
    intro k _
    have hs524 : s < 524288 := hs
    by_cases h : popcount (open_cats s) = k <;> simp [h, hs524]
  rw [List.map_congr_left hstep]
  exact sum_map_ite_range 14 _ (by have := popcount_open_le s; omega)

/-- The iteration order is non-decreasing in the popcount of the open
mask. -/
lemma states_sorted_pairwise :
    all_states_sorted.Pairwise
      (fun a b => popcount (open_cats a) ≤ popcount (open_cats b)) := by
  unfold all_states_sorted
  rw [List.flatMap_def]
  apply List.pairwise_flatten.2
  refine ⟨?_, ?_⟩
  · intro l' hl'
    rcases List.mem_map.1 hl' with ⟨k, _, rfl⟩
    apply List.pairwise_of_forall_mem_list
    intro a ha b hb
    rw [((mem_states_with a k).1 ha).2, ((mem_states_with b k).1 hb).2]
  · rw [List.pairwise_map]
    apply List.Pairwise.imp ?_ (List.pairwise_lt_range 14)
    intro k1 k2 hk x hx y hy
    rw [((mem_states_with x k1).1 hx).2, ((mem_states_with y k2).1 hy).2]
    omega

/-- Strictly smaller popcount means strictly earlier in the iteration
order: the list splits with the lighter state in the left part. -/
lemma states_sorted_split (a b : Nat) (ha : a < 2 ^ 19) (hb : b < 2 ^ 19)
    (hab : popcount (open_cats a) < popcount (open_cats b)) :
    ∃ l1 l2, all_states_sorted = l1 ++ l2 ∧ a ∈ l1 ∧ b ∈ l2 := by
  have hka := popcount_open_le a
  have hkb := popcount_open_le b
  refine ⟨(List.range (popcount (open_cats a) + 1)).flatMap states_with,
    ((List.range (13 - popcount (open_cats a))).map
      (fun x => popcount (open_cats a) + 1 + x)).flatMap states_with, ?_, ?_, ?_⟩
  · unfold all_states_sorted
    rw [← List.flatMap_append]
    congr 1
    rw [← List.range_add]
    congr 1
    omega
  · exact List.mem_flatMap.2 ⟨popcount (open_cats a),
      List.mem_range.2 (by omega), (mem_states_with a _).2 ⟨ha, rfl⟩⟩
  · refine List.mem_flatMap.2 ⟨popcount (open_cats b), ?_,
      (mem_states_with b _).2 ⟨hb, rfl⟩⟩
    refine List.mem_map.2 ⟨popcount (open_cats b) - popcount (open_cats a) - 1,
      List.mem_range.2 (by omega), by omega⟩

/-!
The hold-none row: fresh-throw distribution.
-/

lemma keptList_hold_none (R : List Nat) : keptList R hold_none = [] := by
  unfold keptList
  rw [List.map_eq_nil_iff]
  rw [List.filter_eq_nil_iff]
  intro p hp
  have hb := (List.of_mem_zip hp).2
  have : p.2 = false := by
    rcases p with ⟨x, b⟩
    simp only [hold_none, List.mem_cons, List.not_mem_nil, or_false] at hb
    rcases hb with h | h | h | h | h <;> exact h
  simp [this]

lemma pointLe_of_zeros : ∀ (t c : List Nat), (∀ x ∈ t, x = 0) → pointLe t c = true := by
  intro t
  induction t with
  | nil => intro c _; rfl
  | cons a t ih =>
    intro c hz
    rcases c with _ | ⟨b, c⟩
    · rfl
    · rw [pointLe_cons, Bool.and_eq_true]
      refine ⟨decide_eq_true ?_, ih c (fun x hx => hz x (List.mem_cons_of_mem _ hx))⟩
      rw [hz a (List.mem_cons_self a t)]
      omega

lemma sub_counts_zeros : ∀ (t c : List Nat), (∀ x ∈ t, x = 0) → c.length = t.length →
    sub_counts c t = c := by
  intro t
  induction t with
  | nil =>
    intro c _ hl
    rw [List.length_eq_zero.1 hl]
    rfl
  | cons a t ih =>
    intro c hz hl
    rcases c with _ | ⟨b, c⟩
    · simp at hl
    · rw [sub_counts_cons, hz a (List.mem_cons_self a t), Nat.sub_zero,
        ih c (fun x hx => hz x (List.mem_cons_of_mem _ hx)) (by simpa using hl)]

lemma pip_counts_nil_zero : ∀ x ∈ pip_counts [], x = 0 := by decide

lemma transition_probability_hold_none (R S : List Nat) :
    transition_probability hold_none R S
      = if pointLe (pip_counts []) (pip_counts S)
        then (multinomial (sub_counts (pip_counts S) (pip_counts [])) : ℚ)
              / 6 ^ (sub_counts (pip_counts S) (pip_counts [])).sum
        else 0 := by
  rw [transition_probability_eq, keptList_hold_none]

lemma weight_vector_eq (S : List Nat) (hS : S ∈ hands) :
    weight_vector S = (multinomial (pip_counts S) : ℚ) / 6 ^ 5 := by
  unfold weight_vector
  rw [transition_probability_hold_none]
  rw [if_pos (pointLe_of_zeros _ _ pip_counts_nil_zero)]
  have hSf := hands_mem_facts S hS
  have hsub : sub_counts (pip_counts S) (pip_counts []) = pip_counts S :=
    sub_counts_zeros _ _ pip_counts_nil_zero (by rw [pip_counts_length, pip_counts_length])
  rw [hsub, pip_counts_sum S hSf.2, hSf.1]

/-!
The three-phase form of `score_state`.
-/

lemma score_state_phases (V : Nat → ℚ) (s : Nat) (h : open_cats s ≠ 0) :
    score_state V s = spec_phase_value V s := by
  unfold score_state spec_phase_value phaseD phaseC phaseB row_dot
  rw [if_neg h]

/-!
Claim theorems.
-/

/-- C1, as stated, is false on the code: `best_score` adds no bonus term.
At hand `(1,1,1,1,1)`, state `upper = 62` with only Ones open, and the
zero table, the code returns `5` while the claim's formula gives
`5 + 35 + 0 = 40`. -/
theorem C1_counterexample :
    best_score [1, 1, 1, 1, 1] ((62 <<< 13) ||| 1) (fun _ => 0)
      ≠ claim_best_score [1, 1, 1, 1, 1] ((62 <<< 13) ||| 1) (fun _ => 0) := by
  with_unfolding_all decide

/-- C1 (amended): for every hand `r` and state `s`, `best_score(r, s, V)`
returns the maximum over open categories `c` of `S[r, c] + V[new_state]`
— claim C1's formula without the separate 35-point bonus term (the bonus
is carried by `V` of the states with `upper = 63`) — and `0` when no
category is open. -/
theorem C1_best_score_amended (r : List Nat) (state : Nat) (V : Nat → ℚ)
    (_hr : r ∈ hands) (hV : ∀ t, 0 ≤ V t) :
    best_score r state V = amended_best_score r state V :=
  best_score_eq_amended r state V hV

theorem C1_best_score_amended_witness :
    [1, 1, 1, 1, 1] ∈ hands
    ∧ best_score [1, 1, 1, 1, 1] 8191 (fun _ => 0)
        = amended_best_score [1, 1, 1, 1, 1] 8191 (fun _ => 0) :=
  ⟨by decide,
   C1_best_score_amended [1, 1, 1, 1, 1] 8191 (fun _ => 0) (by decide) (fun _ => le_refl 0)⟩

/-- C2: for every non-terminal state, `score_state` computes exactly the
spec's three-phase contraction: `B[r] = best_score(r, s, V)`, two
max-over-holds tensor contractions, then the inner product with the
fresh-throw weights. -/
theorem C2_three_phase (V : Nat → ℚ) (s : Nat) (h : open_cats s ≠ 0) :
    score_state V s = spec_phase_value V s :=
  score_state_phases V s h

theorem C2_three_phase_witness :
    open_cats 8191 ≠ 0
    ∧ score_state (fun _ => 0) 8191 = spec_phase_value (fun _ => 0) 8191 :=
  ⟨by decide, C2_three_phase (fun _ => 0) 8191 (by decide)⟩

/-- C3: for every terminal state (no open category) with upper field at
most 63, the computed table value is 35 exactly when the upper field is
63, and 0 otherwise; in particular it always lies in `{0, 35}`. -/
theorem C3_terminal_values (s : Nat) (h0 : open_cats s = 0) (h63 : upper_score s ≤ 63) :
    (evaluate_forward_values s = if upper_score s = 63 then 35 else 0)
      ∧ (evaluate_forward_values s = 0 ∨ evaluate_forward_values s = 35) := by
  have hmod : s % 8192 = 0 := by
    have h1 : s &&& 8191 = s % 8192 := by
      rw [eq_8191]
      exact Nat.and_pow_two_sub_one_eq_mod s 13
    have h2 : open_cats s = s &&& 8191 := rfl
    omega
  have hdiv : s / 8192 ≤ 63 := by
    have h2 : upper_score s = s / 8192 := by
      show s >>> 13 = s / 8192
      rw [Nat.shiftRight_eq_div_pow]
    omega
  have hs19 : s < 2 ^ 19 := by omega
  rcases fold_step_write all_states_sorted (fun _ => 0) s (states_count_one s hs19)
    with ⟨W, hW⟩
  have hval : evaluate_forward_values s = score_state W s := hW
  rw [hval]
  unfold score_state
  rw [if_pos h0]
  constructor
  · by_cases h : upper_score s = 63
    · rw [if_pos h, if_neg (by omega)]
    · rw [if_neg h, if_pos (by omega)]
  · by_cases h : upper_score s < 63
    · left; rw [if_pos h]
    · right; rw [if_neg h]

theorem C3_terminal_values_witness :
    (evaluate_forward_values (63 <<< 13)
      = if upper_score (63 <<< 13) = 63 then 35 else 0)
    ∧ (evaluate_forward_values (63 <<< 13) = 0 ∨ evaluate_forward_values (63 <<< 13) = 35) :=
  C3_terminal_values (63 <<< 13) (by decide) (by decide)

/-- C4: the driver's iteration order is non-decreasing in the popcount of
the open mask; every 19-bit state occurs exactly once; every table index
read by `best_score` (clearing one set open bit) has strictly smaller
open-mask popcount; and any state of strictly smaller popcount occurs
strictly earlier in the order (so the read entries are already
written). -/
theorem C4_evaluation_order :
    all_states_sorted.Pairwise
      (fun a b => popcount (open_cats a) ≤ popcount (open_cats b))
    ∧ (∀ s, s < 2 ^ 19 → all_states_sorted.count s = 1)
    ∧ (∀ state u i, i < 13 → state >>> i &&& 1 = 1 →
        popcount (open_cats (new_state_of u state i)) < popcount (open_cats state))
    ∧ (∀ a b, a < 2 ^ 19 → b < 2 ^ 19 →
        popcount (open_cats a) < popcount (open_cats b) →
        ∃ l1 l2, all_states_sorted = l1 ++ l2 ∧ a ∈ l1 ∧ b ∈ l2) :=
  ⟨states_sorted_pairwise,
   fun s hs => states_count_one s hs,
   fun state u i hi hbit => popcount_new_state_lt u state i hi hbit,
   fun a b ha hb hab => states_sorted_split a b ha hb hab⟩

theorem C4_evaluation_order_witness :
    all_states_sorted.count 0 = 1
    ∧ popcount (open_cats (new_state_of 5 8191 0)) < popcount (open_cats 8191)
    ∧ ∃ l1 l2, all_states_sorted = l1 ++ l2 ∧ (3 : Nat) ∈ l1 ∧ (7 : Nat) ∈ l2 :=
  ⟨C4_evaluation_order.2.1 0 (by decide),
   C4_evaluation_order.2.2.1 8191 5 0 (by decide) (by decide),
   C4_evaluation_order.2.2.2 3 7 (by decide) (by decide) (by decide)⟩

/-- C5, as stated, is false on the code at one point: the hand
`(1,2,4,5,6)` scores 18 — not 0 — in the non-upper category Chance
(`score_as` always pays the pip sum for Chance). -/
theorem C5_counterexample : ¬ (score_as [1, 2, 4, 5, 6] Cat.chance = 0) := by decide

/-- C5 (amended): `score_as` implements the spec section-3 scoring table
on all 252 hands and all 13 categories, with all the listed example
values; the hand `(1,2,4,5,6)` scores 0 in every non-upper category
except Chance, where it scores its pip sum 18. -/
theorem C5_scoring_table :
    (∀ r ∈ hands, ∀ c ∈ categories, score_as r c = spec_score r c)
    ∧ score_as [1, 1, 1, 2, 3] Cat.three_kind = 8
    ∧ score_as [2, 2, 3, 3, 3] Cat.full_house = 25
    ∧ score_as [1, 2, 3, 4, 5] Cat.large_straight = 40
    ∧ score_as [2, 3, 4, 5, 5] Cat.small_straight = 30
    ∧ score_as [6, 6, 6, 6, 6] Cat.yahtzee = 50
    ∧ score_as [6, 6, 6, 6, 6] Cat.sixes = 30
    ∧ score_as [6, 6, 6, 6, 6] Cat.chance = 30
    ∧ (∀ c ∈ [Cat.three_kind, Cat.four_kind, Cat.full_house, Cat.small_straight,
        Cat.large_straight, Cat.yahtzee], score_as [1, 2, 4, 5, 6] c = 0)
    ∧ score_as [1, 2, 4, 5, 6] Cat.chance = 18 := by
  decide

theorem C5_scoring_table_witness :
    score_as [1, 1, 1, 1, 1] Cat.ones = spec_score [1, 1, 1, 1, 1] Cat.ones :=
  C5_scoring_table.1 [1, 1, 1, 1, 1] (by decide) Cat.ones (by decide)

/-- C6: every transition-tensor row is a probability distribution: all 32
hold patterns and 252 source hands give non-negative entries whose sum
over the 252 target hands is exactly 1 in rational arithmetic. -/
theorem C6_transition_rows (hold : List Bool) (R : List Nat)
    (_hh : hold ∈ holds) (hR : R ∈ hands) :
    (∀ S, 0 ≤ transition_probability hold R S)
    ∧ (hands.map (fun S => transition_probability hold R S)).sum = 1 :=
  ⟨fun S => transition_probability_nonneg hold R S, row_sum_one hold R hR⟩

theorem C6_transition_rows_witness :
    (∀ S, 0 ≤ transition_probability hold_none [1, 1, 1, 1, 1] S)
    ∧ (hands.map (fun S => transition_probability hold_none [1, 1, 1, 1, 1] S)).sum = 1 :=
  C6_transition_rows hold_none [1, 1, 1, 1, 1] (by decide) (by decide)

/-- C7: for every componentwise non-negative value vector over the hands,
the max-over-holds contraction dominates the vector componentwise,
because the keep-all hold row is the point mass at the source hand. -/
theorem C7_reroll_floor (v : List Nat → ℚ) (_hv : ∀ S ∈ hands, 0 ≤ v S)
    (r : List Nat) (hr : r ∈ hands) :
    v r ≤ contract_T v r :=
  le_contract_T v r hr

theorem C7_reroll_floor_witness :
    (fun _ : List Nat => (0 : ℚ)) [1, 1, 1, 1, 1]
      ≤ contract_T (fun _ => 0) [1, 1, 1, 1, 1] :=
  C7_reroll_floor (fun _ => 0) (fun _ _ => le_refl 0) [1, 1, 1, 1, 1] (by decide)

/-- C8: the hold-none row does not depend on the source hand, so the
code's `w = P[0, 0, ·]` loses nothing; each weight equals
`multinomial(count(s)) / 6^5`, and the weights sum to 1. -/
theorem C8_weight_vector :
    (∀ R S : List Nat, transition_probability hold_none R S = weight_vector S)
    ∧ (∀ S ∈ hands, weight_vector S = (multinomial (pip_counts S) : ℚ) / 6 ^ 5)
    ∧ (hands.map weight_vector).sum = 1 := by
  refine ⟨?_, fun S hS => weight_vector_eq S hS, ?_⟩
  · intro R S
    unfold weight_vector
    rw [transition_probability_hold_none, transition_probability_hold_none]
  · exact row_sum_one hold_none [1, 1, 1, 1, 1] (by decide)

theorem C8_weight_vector_witness :
    transition_probability hold_none [2, 2, 3, 3, 3] [1, 1, 1, 1, 1]
      = weight_vector [1, 1, 1, 1, 1]
    ∧ weight_vector [1, 1, 1, 1, 1]
        = (multinomial (pip_counts [1, 1, 1, 1, 1]) : ℚ) / 6 ^ 5 :=
  ⟨C8_weight_vector.1 [2, 2, 3, 3, 3] [1, 1, 1, 1, 1],
   C8_weight_vector.2.1 [1, 1, 1, 1, 1] (by decide)⟩

/-- C10: every table index `best_score` reads is in bounds: the upper
field is clamped to at most 63 by `min(·, 63)` and the open mask is
masked to 13 bits, so `new_state < 2^19` — for any hand's upper
contribution `u`, any state, and any category index below 13. -/
theorem C10_read_in_bounds (state u i : Nat) (_hs : state < 2 ^ 19) (_hi : i < 13) :
    new_state_of u state i < 2 ^ 19 := by
  unfold new_state_of
  apply Nat.or_lt_two_pow
  · rw [Nat.shiftLeft_eq]
    have hmin : min (upper_score state + u) 63 ≤ 63 := min_le_right _ _
    calc min (upper_score state + u) 63 * 2 ^ 13
        ≤ 63 * 2 ^ 13 := Nat.mul_le_mul_right _ hmin
      _ < 2 ^ 19 := by norm_num
  · have : (state &&& (8191 ^^^ (1 <<< i))) &&& 8191 ≤ 8191 := Nat.and_le_right
    omega

theorem C10_read_in_bounds_witness : new_state_of 5 8191 0 < 2 ^ 19 :=
  C10_read_in_bounds 8191 5 0 (by decide) (by decide)
